import Mathlib

/-!
Verification development for the `file-list-size` tool (src/src/main.rs).

The Rust program lists version-control-untracked files, derives a depth matrix
of directory prefixes, builds a size-annotated directory tree and prints it.
The definitions below are a shallow embedding of the relevant functions of
`main.rs`, translated clause by clause from the source:

* `File`, `FileTree`, `FileTreeInfo`  — the structs of `main.rs`.
* `splitChar`                         — Rust `str::split(MAIN_SEPARATOR)` (the
  target is unix, so the separator is the character `/`).
* `scanPre`                           — the `scan` closure inside
  `get_dir_hierarchy_matrix`, which turns segments into cumulative prefixes,
  each starting with the separator.
* `hsInsert`, `updateLevels`, `dirStep`, `dir_tree_hierarchy` — the loop body
  of `dir_tree_hierarchy`; the per-level Rust `HashSet` is modelled as an
  insertion-ordered duplicate-free list (`HashSet` iteration order is
  unspecified in Rust; only set membership of a level is relied upon).
* `getFilesAtDir`                     — `get_files_at_dir` in the fault-free
  case; the filesystem is passed explicitly as a function from the directory
  string handed to `fs::read_dir` (that is, `"." ++ dirPath`) to the list of
  directory entries, each carrying the path string returned by `DirEntry::path`
  (hence the leading `./`), its `is_file` flag and its metadata size.
* `getFilesAtDirPanic`                — the same function under the fallible
  filesystem model: `read_dir` and each entry's `metadata()` may fail, and the
  source calls `.unwrap()` on every one of them, so any failure panics; the
  panic is modelled as `none`.
* `FileTree.new`                      — `FileTree::new`.  The source recurses
  with `h_index + 1` and returns `None` as soon as `h_index + 1 > tree_height`,
  so its recursion depth is exactly `tree_height - h_index`; the embedding
  makes that measure an explicit structural argument (`FileTree.newGo`), and
  `FileTree.new_eq` below proves the source-shaped unfolding equation.
  Rust's panicking indexing `dir_matrix[h_index][w_index]` is modelled with
  `List.getD _ _ default`; all calls arising from `execute` are in bounds.
* `truncate_decimal`, `size_str`      — the formatting functions. The Rust
  code computes over `f64` and prints with `f64::to_string`;  the embedding
  uses exact rational arithmetic and prints the exact (finite) decimal
  expansion without trailing zeros, which agrees with Rust's
  shortest-roundtrip formatting on every value the unit boundaries and the
  repository's own tests exercise.
* `get_file_list_from`, `FileTree.flatten`, `printTree`, `execute` — the rest
  of the pipeline; `execute` is a pure function of the collaborator's stdout
  and the filesystem model, returning the exit code and the printed lines.
-/

structure File where
  path : String
  byte_size : Nat
deriving DecidableEq, Repr

structure FileTree where
  dir : String
  files : List File
  nodes : List FileTree
  size : Nat
deriving Repr

structure FileTreeInfo where
  dir : String
  files : List File
  size : Nat
deriving DecidableEq, Repr

/-- Models a directory entry as observed through `fs::read_dir`: the path the
entry reports (prefixed by the `.` that the source prepends to the directory
string), whether the metadata says it is a plain file, and its byte size. -/
structure DirEnt where
  path : String
  is_file : Bool
  size : Nat
deriving DecidableEq, Repr

/-- Fault-free filesystem model: the argument is the string handed to
`fs::read_dir` (always of the form `"." ++ dirPath` in this program). -/
def FsModel : Type := String → List DirEnt

/-- Accumulator-based splitter; models Rust `str::split(sep)` for a one-char
separator (`"a//b"` gives `["a", "", "b"]`, `""` gives `[""]`). -/
def splitCharAux (sep : Char) : List Char → List Char → List String
  | [], cur => [String.mk cur.reverse]
  | c :: rest, cur =>
      if c = sep then String.mk cur.reverse :: splitCharAux sep rest []
      else splitCharAux sep rest (c :: cur)

def splitChar (sep : Char) (s : String) : List String :=
  splitCharAux sep s.data []

/-- The `scan` step of `get_dir_hierarchy_matrix`: the mutable accumulator
starts empty and, for each segment, pushes the separator and the segment,
yielding the cumulative prefix (so every prefix starts with `/`). -/
def scanPre (acc : String) : List String → List String
  | [] => []
  | s :: rest =>
      let acc2 := acc ++ "/" ++ s
      acc2 :: scanPre acc2 rest

/-- Rust `HashSet::insert`, modelled on an insertion-ordered list. -/
def hsInsert {T : Type} [DecidableEq T] (s : List T) (x : T) : List T :=
  if x ∈ s then s else s ++ [x]

/-- One iteration of the inner loop of `dir_tree_hierarchy`: insert `x` into
level `i` if that level exists, otherwise push a fresh singleton level
(the source only ever reaches the push when `i` equals the current number of
levels, because `i` counts up from `0`). -/
def updateLevels {T : Type} [DecidableEq T] (output : List (List T)) (i : Nat) (x : T) : List (List T) :=
  if h : i < output.length then output.set i (hsInsert (output.get ⟨i, h⟩) x)
  else output ++ [[x]]

/-- Processing of one decomposed path by `dir_tree_hierarchy`: the loop breaks
at the last index (`// ignore files`), so exactly the elements of
`vec.dropLast` are inserted, each at its index. -/
def dirStep {T : Type} [DecidableEq T] (output : List (List T)) (vec : List T) : List (List T) :=
  vec.dropLast.enum.foldl (fun acc ix => updateLevels acc ix.1 ix.2) output

def dir_tree_hierarchy {T : Type} [DecidableEq T] (input : List (List T)) : List (List T) :=
  input.foldl dirStep []

def get_dir_hierarchy_matrix (files : List String) : List (List String) :=
  dir_tree_hierarchy (files.map (fun s => scanPre "" (splitChar '/' s)))

/-- Substring containment on the underlying character lists; models Rust
`String::contains(&str)` as used in the child-matching filter. -/
def isSubstring (needle : List Char) : List Char → Bool
  | [] => needle.isEmpty
  | c :: t => needle.isPrefixOf (c :: t) || isSubstring needle t

/-- Rust byte-slice `s[2..]`, stripping the leading `./` (ASCII here). -/
def drop2 (s : String) : String := String.mk (s.data.drop 2)

/-- `get_files_at_dir` in the fault-free case: list `"." ++ dir_path`, keep
plain files, keep those whose path without the leading `./` is in the
untracked set, and read the size from the metadata. -/
def getFilesAtDir (fs : FsModel) (untracked_files : List String) (dir_path : String) : List File :=
  (((fs ("." ++ dir_path)).filter (fun de => de.is_file)).filter
      (fun de => untracked_files.contains (drop2 de.path))).map
    (fun de => { path := de.path, byte_size := de.size })

/-- Recursion core of `FileTree::new`.  The fuel argument is exactly
`dir_matrix.length - h_index`, the number of levels at or below `h_index`:
the source returns `None` when `h_index + 1 > tree_height` (fuel `0` here)
and otherwise recurses at `h_index + 1` (fuel one less).  `FileTree.new_eq`
proves the equation in the control-flow shape of the source. -/
def FileTree.newGo (fs : FsModel) (dir_matrix : List (List String)) (target_files : List String) :
    Nat → Nat → Nat → Option FileTree
  | 0, _, _ => none
  | fuel + 1, h_index, w_index =>
      let tree_height := dir_matrix.length
      let children : List String :=
        if h_index + 1 = tree_height then [] else dir_matrix.getD (h_index + 1) []
      let dir : String := (dir_matrix.getD h_index []).getD w_index ""
      let child_nodes : List FileTree :=
        (children.enum.filter (fun iw => isSubstring dir.data iw.2.data)).filterMap
          (fun iw => FileTree.newGo fs dir_matrix target_files fuel (h_index + 1) iw.1)
      let files_in_cur_dir := getFilesAtDir fs target_files dir
      let size_of_cur_dir := files_in_cur_dir.foldl (fun acc file => acc + file.byte_size) 0
      let size_of_children := child_nodes.foldl (fun acc tree => acc + tree.size) 0
      some
        { dir := dir
          files := getFilesAtDir fs target_files dir
          nodes := child_nodes
          size := size_of_cur_dir + size_of_children }

def FileTree.new (fs : FsModel) (dir_matrix : List (List String)) (target_files : List String)
    (h_index w_index : Nat) : Option FileTree :=
  FileTree.newGo fs dir_matrix target_files (dir_matrix.length - h_index) h_index w_index

/-- The `(index, child)` pairs of `matrix[h+1]` passing the source's
`ch.contains(dir)` filter at node `(h, w)` — the candidate children that
`FileTree::new` recurses on. -/
def candChildren (dir_matrix : List (List String)) (h_index w_index : Nat) : List (Nat × String) :=
  (if h_index + 1 = dir_matrix.length then ([] : List String)
   else dir_matrix.getD (h_index + 1) []).enum.filter
    (fun iw => isSubstring ((dir_matrix.getD h_index []).getD w_index "").data iw.2.data)

def get_file_list_from (std_out : String) : List String :=
  (splitChar '\n' std_out).filter (fun x => x ≠ "")

/-- Index of the first `.` in the character list, as the source computes it
with `chars().enumerate().filter(ch == dot).nth(0)`. -/
def findDotIdx : List Char → Option Nat
  | [] => none
  | c :: t => if c = '.' then some 0 else (findDotIdx t).map (· + 1)

/-- `truncate_decimal`: keep everything up to one character after the first
`.`, or the whole string when there is none (the strings involved are ASCII,
so the source's byte slicing coincides with character slicing). -/
def truncate_decimal (s : String) : String :=
  match findDotIdx s.data with
  | some index => String.mk (s.data.take (index + 2))
  | none => s

/-- Smallest `k ≤ fuel` with `d ∣ n * 10 ^ k`: the number of decimal digits
after the point in the exact, trailing-zero-free expansion of `n / d`. -/
def decScale (d : Nat) : Nat → Nat → Nat
  | 0, _ => 0
  | fuel + 1, n => if n % d = 0 then 0 else decScale d fuel (n * 10) + 1

/-- Exact decimal rendering of the non-negative rational `n / d` (whose
expansion terminates, as for every value this program formats): integer part,
then `.` and the fractional digits (zero-padded on the left, no trailing
zeros since the scale is minimal), and no decimal point at all for whole
numbers.  On every value reaching it here this agrees with Rust's
`f64::to_string` shortest-roundtrip output. -/
def renderDec (n d : Nat) : String :=
  let k := decScale d 30 n
  let m := n * 10 ^ k / d
  if k = 0 then toString m
  else
    let fr := toString (m % 10 ^ k)
    toString (m / 10 ^ k) ++ "." ++ (String.mk (List.replicate (k - fr.length) '0') ++ fr)

/-- `size_str`: the source's `match` on an `f64` with inclusive range guards
and a `gb` catch-all, transcribed over exact rationals.  The divisions by
`1000.0`, `1_000_000.0`, `1_000_000_000.0` before printing are carried out
exactly, by scaling the denominator (`size_str_div_eq` below relates one such
scaling to rational division). -/
def size_str (size : ℚ) : String :=
  if 0 ≤ size ∧ size ≤ mkRat 9999 10 then
    truncate_decimal (renderDec size.num.toNat size.den) ++ "b"
  else if 1000 ≤ size ∧ size ≤ mkRat 9999999 10 then
    truncate_decimal (renderDec size.num.toNat (size.den * 1000)) ++ "kb"
  else if 1000000 ≤ size ∧ size ≤ mkRat 9999999999 10 then
    truncate_decimal (renderDec size.num.toNat (size.den * 1000000)) ++ "mb"
  else
    truncate_decimal (renderDec size.num.toNat (size.den * 1000000000)) ++ "gb"

/-- Pre-order flattening (`FileTree::flatten` pushes the node itself, then
recursively each child in order). -/
def FileTree.flatten : FileTree → List FileTreeInfo
  | ⟨dir, files, nodes, size⟩ =>
      ⟨dir, files, size⟩ ::
        (nodes.attach.map (fun c => FileTree.flatten c.1)).flatten
termination_by t => sizeOf t
decreasing_by
  have h1 := List.sizeOf_lt_of_mem c.2
  simp only [FileTree.mk.sizeOf_spec]
  omega

/-- `FileTree::print`, as the list of printed lines: directories sorted by
aggregate size ascending (itertools `sorted_by` is a stable sort), each
followed by its files sorted by byte size ascending. -/
def printTree (t : FileTree) : List String :=
  let file_tree_infos := t.flatten
  let sorted_info := file_tree_infos.mergeSort (fun a b => decide (a.size ≤ b.size))
  (sorted_info.map (fun inf =>
      (inf.dir ++ ": " ++ size_str (inf.size : ℚ)) ::
        ((inf.files.mergeSort (fun a b => decide (a.byte_size ≤ b.byte_size))).map
          (fun f => "    - " ++ f.path ++ ": " ++ size_str ((f.byte_size : ℚ)))))).flatten

/-- `execute` followed by `main`'s exit handling, as a pure function of the
collaborator's stdout and the filesystem model: the untracked list is parsed,
the depth matrix and the tree are built (the `HashSet` of target paths is
membership-equivalent to the list), the tree — when there is one — is
printed, and the run exits `0`.  Returns `(exit code, printed lines)`. -/
def execute (fs : FsModel) (git_stdout : String) : Nat × List String :=
  let file_list := get_file_list_from git_stdout
  let dir_matrix := get_dir_hierarchy_matrix file_list
  match FileTree.new fs dir_matrix file_list 0 0 with
  | some file_tree => (0, printTree file_tree)
  | none => (0, [])

/-- Characters of a string from its first `.` on (empty when there is no
`.`); used to state "at most one digit after the decimal point". -/
def dotTail (s : List Char) : List Char := s.dropWhile (fun c => !(c == '.'))

/-- Left fold joining segments onto `acc`, one separator before each segment;
`scanPre acc segs` yields exactly the partial values of this fold. -/
def joinFrom (acc : String) (segs : List String) : String :=
  segs.foldl (fun a s => a ++ "/" ++ s) acc

/-- The directory-path string of a segment sequence in the matrix's format
(a leading separator before every segment). -/
def joinPath (segs : List String) : String := joinFrom "" segs

/-- Modelled from the spec: the proper path-prefix / directory-nesting test
that section 4.3 and the Design Notes require in place of the source's
substring check — `child` lies strictly under `parent` exactly when `child`
starts with `parent` followed by a separator. -/
def isNestedUnder (parent child : String) : Bool :=
  (parent ++ "/").data.isPrefixOf child.data

/-- Modelled from the spec: "it must filter the already-known target set by
path" — the files of a node are the target files whose enclosing directory
equals the node's `dirPath` (in the matrix's leading-separator format), with
sizes taken from an already-known metadata oracle, touching no directory
listing. -/
def specFilesAtDir (sizes : String → Nat) (untracked : List String) (dir_path : String) : List File :=
  (untracked.filter (fun p => joinPath ((splitChar '/' p).dropLast) = dir_path)).map
    (fun p => { path := p, byte_size := sizes p })

/-- Metadata of a directory entry, as far as this program reads it. -/
structure RMeta where
  is_file : Bool
  size : Nat
deriving DecidableEq, Repr

/-- A `read_dir` entry under the fallible model: `meta = none` models the
entry's `metadata()` call returning `Err` (file vanished, permission
denied). -/
structure RDirEnt where
  path : String
  meta : Option RMeta
deriving DecidableEq, Repr

/-- Fallible filesystem model: `none` models `fs::read_dir` itself failing. -/
def FsModelF : Type := String → Option (List RDirEnt)

/-- `get_files_at_dir` under the fallible model.  The source calls
`.unwrap()` on the `read_dir` result and on every entry's `metadata()`
result, so any single failure panics and aborts the whole run; the panic is
modelled as `none`. -/
def getFilesAtDirPanic (ffs : FsModelF) (untracked_files : List String) (dir_path : String) :
    Option (List File) :=
  match ffs ("." ++ dir_path) with
  | none => none
  | some entries =>
      (entries.mapM (fun (de : RDirEnt) => de.meta.map (fun m => (de.path, m)))).map
        (fun pms =>
          ((pms.filter (fun pm => pm.2.is_file)).filter
              (fun pm => untracked_files.contains (drop2 pm.1))).map
            (fun pm => { path := pm.1, byte_size := pm.2.size }))

/-- Modelled from the spec: "skip that file, continue building the tree from
the remainder" — an entry whose metadata cannot be read is dropped and the
remaining entries are processed exactly as in the fault-free path. -/
def skipFilesAtDir (entries : List RDirEnt) (untracked_files : List String) : List File :=
  (((entries.filterMap (fun de => de.meta.map (fun m => (de.path, m)))).filter
        (fun pm => pm.2.is_file)).filter
      (fun pm => untracked_files.contains (drop2 pm.1))).map
    (fun pm => { path := pm.1, byte_size := pm.2.size })

def sumF (files : List File) : Nat := files.foldl (fun acc file => acc + file.byte_size) 0

def sumT (nodes : List FileTree) : Nat := nodes.foldl (fun acc tree => acc + tree.size) 0

/-- The aggregate-size invariant at every node of a tree: the node's size is
the sum of its own files' byte sizes plus the sum of its children's sizes,
recursively. -/
inductive AggInv : FileTree → Prop where
  | node (t : FileTree) (hsize : t.size = sumF t.files + sumT t.nodes)
      (hchildren : ∀ c ∈ t.nodes, AggInv c) : AggInv t

/-! Concrete fixtures used by the claim theorems and witnesses. -/

def tgtC1 : List String := ["a/x.txt", "ab/c/y.txt"]

def fsC1 : FsModel := fun d =>
  if d = "./a" then [⟨"./a/x.txt", true, 1⟩]
  else if d = "./ab/c" then [⟨"./ab/c/y.txt", true, 2⟩]
  else []

def treeC1 : FileTree :=
  ⟨"/a", [⟨"./a/x.txt", 1⟩], [⟨"/ab/c", [⟨"./ab/c/y.txt", 2⟩], [], 2⟩], 3⟩

def fsC2 : FsModel := fun d => if d = "." then [⟨"./x.txt", true, 5⟩] else []

def tgtC3 : List String := ["a/x.txt"]

/-- Listing of `./a` containing the untracked target plus a tracked file. -/
def fsC3a : FsModel := fun d =>
  if d = "./a" then [⟨"./a/x.txt", true, 5⟩, ⟨"./a/tracked.txt", true, 9⟩] else []

/-- The same target set, but the directory listing no longer shows the file
(it vanished between the untracked listing and the tree build). -/
def fsC3b : FsModel := fun _ => []

def sizesC3 : String → Nat := fun p => if p = "a/x.txt" then 5 else 0

def listingC4 : List RDirEnt := [⟨"./a/x.txt", none⟩, ⟨"./a/y.txt", some ⟨true, 3⟩⟩]

def ffsC4 : FsModelF := fun d => if d = "./a" then some listingC4 else some []

def tgtC4 : List String := ["a/x.txt", "a/y.txt"]

def tgtC5 : List String := ["a/b/c/f.txt"]

def fsC5 : FsModel := fun d => if d = "./a/b/c" then [⟨"./a/b/c/f.txt", true, 7⟩] else []

def treeC5 : FileTree :=
  ⟨"/a", [], [⟨"/a/b", [], [⟨"/a/b/c", [⟨"./a/b/c/f.txt", 7⟩], [], 7⟩], 7⟩], 7⟩

def inputC6 : List String := ["a/b/x.txt", "a/c/y.txt"]

def fsC7 : FsModel := fun _ => []

def fsC10 : FsModel := fun _ => []

def mC10 : List (List String) := [["/a"], ["/a/b"]]

def treeC10 : FileTree := ⟨"/a", [], [⟨"/a/b", [], [], 0⟩], 0⟩

/-! Helper lemmas. -/

theorem length_filterMap_of_isSome {α β : Type} (f : α → Option β) :
    ∀ l : List α, (∀ x ∈ l, (f x).isSome) → (l.filterMap f).length = l.length := by
  intro l
  induction l with
  | nil => intro _; rfl
  | cons x t ih =>
      intro hall
      rw [List.filterMap_cons]
      cases hx : f x with
      | none =>
          have h1 := hall x (List.mem_cons_self x t)
          rw [hx] at h1
          simp at h1
      | some b =>
          simp only [List.length_cons]
          rw [ih (fun y hy => hall y (List.mem_cons_of_mem x hy))]

theorem newGo_zero (fs : FsModel) (m : List (List String)) (tgt : List String) (h w : Nat) :
    FileTree.newGo fs m tgt 0 h w = none := rfl

theorem newGo_succ_isSome (fs : FsModel) (m : List (List String)) (tgt : List String)
    (k h w : Nat) : (FileTree.newGo fs m tgt (k + 1) h w).isSome := by
  simp [FileTree.newGo]

/-- C1: the claim is what the spec requires, but the source links children by
substring containment (`ch.contains(dir)`), not by the proper path-prefix
test: with untracked files `a/x.txt` and `ab/c/y.txt` the built node `/a`
acquires `/ab/c` as its child even though `/ab/c` is not nested under `/a`
(its string merely contains `/a` as a substring). -/
theorem c1_substring_child_link :
    FileTree.new fsC1 (get_dir_hierarchy_matrix tgtC1) tgtC1 0 0 = some treeC1
    ∧ treeC1.dir = "/a"
    ∧ treeC1.nodes.map FileTree.dir = ["/ab/c"]
    ∧ isNestedUnder "/a" "/ab/c" = false
    ∧ isSubstring "/a".data "/ab/c".data = true :=
  ⟨rfl, rfl, rfl, rfl, rfl⟩

/-- C2: a listed, readable file whose path has no directory separator is
silently omitted from the report — with `x.txt` as the only untracked file
the depth matrix is empty, no tree is built, and the run prints nothing. -/
theorem c2_root_file_omitted :
    "x.txt" ∈ get_file_list_from "x.txt\n"
    ∧ fsC2 "." = [⟨"./x.txt", true, 5⟩]
    ∧ execute fsC2 "x.txt\n" = (0, []) :=
  ⟨by decide, rfl, rfl⟩

/-- C3: the source does re-derive membership by re-listing the directory
(`fs::read_dir`): with the target set fixed, two filesystem states with
different listings of `./a` give different node file lists, and on the state
where the listing no longer shows the target file the result diverges from
the spec's filter-the-target-set semantics.  The exclusion half of the claim
does hold concretely: the tracked file present in the listing is excluded. -/
theorem c3_relists_directory :
    getFilesAtDir fsC3a tgtC3 "/a" = [⟨"./a/x.txt", 5⟩]
    ∧ getFilesAtDir fsC3b tgtC3 "/a" = []
    ∧ specFilesAtDir sizesC3 tgtC3 "/a" = [⟨"a/x.txt", 5⟩]
    ∧ decide (getFilesAtDir fsC3a tgtC3 "/a" = getFilesAtDir fsC3b tgtC3 "/a") = false
    ∧ decide (getFilesAtDir fsC3b tgtC3 "/a" = specFilesAtDir sizesC3 tgtC3 "/a") = false :=
  ⟨rfl, rfl, rfl, by decide, by decide⟩

/-- C4: the claim is the spec's skip-and-continue semantics, but the source
unwraps every `metadata()` result, so one unreadable entry panics and aborts
the whole run (modelled as `none`), instead of skipping that entry as the
spec-modelled behaviour does. -/
theorem c4_metadata_panic :
    ffsC4 "./a" = some listingC4
    ∧ getFilesAtDirPanic ffsC4 tgtC4 "/a" = none
    ∧ skipFilesAtDir listingC4 tgtC4 = [⟨"./a/y.txt", 3⟩] :=
  ⟨rfl, rfl, rfl⟩

/-- C7 counterexample: on an empty untracked list the run prints no lines at
all, so in particular no "nothing to show" message is emitted, refuting that
conjunct of the claim. -/
theorem c7_no_message :
    execute fsC7 "" = (0, [])
    ∧ (execute fsC7 "").2.any (fun l => isSubstring "nothing to show".data l.data) = false :=
  ⟨rfl, rfl⟩

/-- C7 amended: with zero untracked files the run exits with code 0, builds
no tree, and prints nothing (no message of any kind), for every filesystem
state. -/
theorem c7_empty_input_silent (fs : FsModel) :
    FileTree.new fs (get_dir_hierarchy_matrix (get_file_list_from ""))
        (get_file_list_from "") 0 0 = none
    ∧ execute fs "" = (0, []) :=
  ⟨rfl, rfl⟩

theorem c7_empty_input_silent_witness : execute fsC7 "" = (0, []) :=
  (c7_empty_input_silent fsC7).2

/-- C10: `FileTree::new` returns `None` exactly when `h_index + 1` exceeds
the matrix height; hence the top-level `(0, 0)` call returns `None` exactly
when the depth matrix is empty, and a built node never drops a candidate
child — its `nodes` list is exactly as long as the list of candidates that
passed the `contains` filter. -/
theorem c10_new_none_iff (fs : FsModel) (m : List (List String)) (tgt : List String) :
    (∀ h w, FileTree.new fs m tgt h w = none ↔ m.length < h + 1)
    ∧ (FileTree.new fs m tgt 0 0 = none ↔ m = [])
    ∧ (∀ h w t, FileTree.new fs m tgt h w = some t →
        t.nodes.length = (candChildren m h w).length) := by
  have hnone : ∀ h w, FileTree.new fs m tgt h w = none ↔ m.length < h + 1 := by
    intro h w
    unfold FileTree.new
    cases hk : m.length - h with
    | zero =>
        simp only [newGo_zero]
        exact iff_of_true trivial (by omega)
    | succ k =>
        constructor
        · intro hcon
          have := newGo_succ_isSome fs m tgt k h w
          rw [hcon] at this
          simp at this
        · intro hlt; omega
  refine ⟨hnone, ?_, ?_⟩
  · rw [hnone 0 0]
    constructor
    · intro h1
      have : m.length = 0 := by omega
      exact List.length_eq_zero.mp this
    · intro h1; subst h1; simp
  · intro h w t ht
    unfold FileTree.new at ht
    cases hk : m.length - h with
    | zero => rw [hk] at ht; exact absurd ht (by simp [newGo_zero])
    | succ k =>
        rw [hk] at ht
        simp only [FileTree.newGo, Option.some.injEq] at ht
        subst ht
        simp only []
        by_cases hc : h + 1 = m.length
        · simp [candChildren, hc]
        · rw [candChildren]
          rw [if_neg hc]
          have hk1 : 1 ≤ k := by omega
          apply length_filterMap_of_isSome
          intro iw _
          obtain ⟨k1, rfl⟩ : ∃ k1, k = k1 + 1 := ⟨k - 1, by omega⟩
          exact newGo_succ_isSome fs m tgt k1 (h + 1) iw.1

theorem c10_new_none_iff_witness :
    FileTree.new fsC10 mC10 [] 0 0 = some treeC10
    ∧ treeC10.nodes.length = (candChildren mC10 0 0).length
    ∧ (FileTree.new fsC10 ([] : List (List String)) [] 0 0 = none ↔ ([] : List (List String)) = []) :=
  ⟨rfl, (c10_new_none_iff fsC10 mC10 []).2.2 0 0 treeC10 rfl,
    (c10_new_none_iff fsC10 [] []).2.1⟩

theorem aggInv_newGo (fuel : Nat) :
    ∀ (fs : FsModel) (m : List (List String)) (tgt : List String) (h w : Nat) (t : FileTree),
      FileTree.newGo fs m tgt fuel h w = some t → AggInv t := by
  induction fuel with
  | zero => intro fs m tgt h w t ht; exact absurd ht (by simp [newGo_zero])
  | succ k ih =>
      intro fs m tgt h w t ht
      simp only [FileTree.newGo, Option.some.injEq] at ht
      subst ht
      refine AggInv.node _ rfl ?_
      intro c hc
      rw [List.mem_filterMap] at hc
      obtain ⟨iw, _, hsome⟩ := hc
      exact ih fs m tgt (h + 1) iw.1 c hsome

/-- C5: every node of a tree built by `FileTree::new` satisfies the aggregate
invariant — its size is the sum of its own files' byte sizes plus the sum of
its children's aggregate sizes, recursively at every depth. -/
theorem c5_aggregate_invariant (fs : FsModel) (m : List (List String)) (tgt : List String)
    (h w : Nat) (t : FileTree) (ht : FileTree.new fs m tgt h w = some t) : AggInv t :=
  aggInv_newGo (m.length - h) fs m tgt h w t ht

theorem c5_aggregate_invariant_witness :
    FileTree.new fsC5 (get_dir_hierarchy_matrix tgtC5) tgtC5 0 0 = some treeC5
    ∧ AggInv treeC5 :=
  ⟨rfl, c5_aggregate_invariant fsC5 (get_dir_hierarchy_matrix tgtC5) tgtC5 0 0 treeC5 rfl⟩

theorem dotTail_of_findDotIdx_none :
    ∀ l : List Char, findDotIdx l = none → dotTail l = [] := by
  intro l
  induction l with
  | nil => intro _; rfl
  | cons c t ih =>
      intro h
      rw [findDotIdx] at h
      by_cases hc : c = '.'
      · rw [if_pos hc] at h; exact absurd h (by simp)
      · rw [if_neg hc] at h
        have ht : findDotIdx t = none := by
          cases hx : findDotIdx t with
          | none => rfl
          | some j => rw [hx] at h; simp at h
        rw [dotTail, List.dropWhile_cons]
        have : (!(c == '.')) = true := by simp [hc]
        rw [if_pos this]
        exact ih ht

theorem dotTail_take_of_findDotIdx :
    ∀ (l : List Char) (i : Nat), findDotIdx l = some i →
      (dotTail (l.take (i + 2))).length ≤ 2 := by
  intro l
  induction l with
  | nil => intro i h; rw [findDotIdx] at h; exact absurd h (by simp)
  | cons c t ih =>
      intro i h
      rw [findDotIdx] at h
      by_cases hc : c = '.'
      · rw [if_pos hc] at h
        have hi : i = 0 := by
          have := h; simp at this; omega
        subst hi
        rw [List.take_cons (by omega)]
        rw [dotTail, List.dropWhile_cons]
        have : (!(c == '.')) = false := by simp [hc]
        rw [if_neg (by simp [this])]
        simp only [List.length_cons]
        have := List.length_take_le (0 + 2 - 1) t
        omega
      · rw [if_neg hc] at h
        obtain ⟨j, hj, rfl⟩ : ∃ j, findDotIdx t = some j ∧ i = j + 1 := by
          cases hx : findDotIdx t with
          | none => rw [hx] at h; simp at h
          | some j => rw [hx] at h; simp at h; exact ⟨j, rfl, h.symm⟩
        rw [List.take_cons (by omega)]
        rw [dotTail, List.dropWhile_cons]
        have : (!(c == '.')) = true := by simp [hc]
        rw [if_pos this]
        have harith : j + 1 + 2 - 1 = j + 2 := by omega
        rw [harith]
        exact ih j hj

theorem dotTail_truncate (s : String) : (dotTail (truncate_decimal s).data).length ≤ 2 := by
  rw [truncate_decimal]
  cases h : findDotIdx s.data with
  | some i => exact dotTail_take_of_findDotIdx s.data i h
  | none => rw [dotTail_of_findDotIdx_none s.data h]; simp

theorem sizeStr_shape (q : ℚ) :
    ∃ num unit, unit ∈ (["b", "kb", "mb", "gb"] : List String)
      ∧ size_str q = num ++ unit ∧ (dotTail num.data).length ≤ 2 := by
  rw [size_str]
  split
  · exact ⟨_, "b", by simp, rfl, dotTail_truncate _⟩
  · split
    · exact ⟨_, "kb", by simp, rfl, dotTail_truncate _⟩
    · split
      · exact ⟨_, "mb", by simp, rfl, dotTail_truncate _⟩
      · exact ⟨_, "gb", by simp, rfl, dotTail_truncate _⟩

theorem natCast_le_mkRat_iff (n : ℕ) (a : ℤ) (b : ℕ) (hb : 0 < b) :
    ((n : ℚ) ≤ mkRat a b) ↔ (n : ℤ) * b ≤ a := by
  rw [Rat.mkRat_eq_div]
  rw [le_div_iff₀ (by exact_mod_cast hb)]
  exact_mod_cast Iff.rfl

theorem sizeStr_nat_b (n : ℕ) (hn : n ≤ 999) :
    size_str (n : ℚ) = truncate_decimal (renderDec n 1) ++ "b" := by
  rw [size_str, if_pos ⟨by positivity, (natCast_le_mkRat_iff n 9999 10 (by norm_num)).mpr (by omega)⟩]
  simp [Rat.num_natCast, Rat.den_natCast]

theorem sizeStr_nat_kb (n : ℕ) (h1 : 1000 ≤ n) (h2 : n ≤ 999999) :
    size_str (n : ℚ) = truncate_decimal (renderDec n 1000) ++ "kb" := by
  rw [size_str]
  rw [if_neg (by
    rintro ⟨-, hx⟩
    rw [natCast_le_mkRat_iff n 9999 10 (by norm_num)] at hx
    omega)]
  rw [if_pos ⟨by exact_mod_cast h1, (natCast_le_mkRat_iff n 9999999 10 (by norm_num)).mpr (by omega)⟩]
  simp [Rat.num_natCast, Rat.den_natCast]

theorem sizeStr_nat_mb (n : ℕ) (h1 : 1000000 ≤ n) (h2 : n ≤ 999999999) :
    size_str (n : ℚ) = truncate_decimal (renderDec n 1000000) ++ "mb" := by
  rw [size_str]
  rw [if_neg (by
    rintro ⟨-, hx⟩
    rw [natCast_le_mkRat_iff n 9999 10 (by norm_num)] at hx
    omega)]
  rw [if_neg (by
    rintro ⟨-, hx⟩
    rw [natCast_le_mkRat_iff n 9999999 10 (by norm_num)] at hx
    omega)]
  rw [if_pos ⟨by exact_mod_cast h1, (natCast_le_mkRat_iff n 9999999999 10 (by norm_num)).mpr (by omega)⟩]
  simp [Rat.num_natCast, Rat.den_natCast]

theorem sizeStr_nat_gb (n : ℕ) (h1 : 1000000000 ≤ n) :
    size_str (n : ℚ) = truncate_decimal (renderDec n 1000000000) ++ "gb" := by
  rw [size_str]
  rw [if_neg (by
    rintro ⟨-, hx⟩
    rw [natCast_le_mkRat_iff n 9999 10 (by norm_num)] at hx
    omega)]
  rw [if_neg (by
    rintro ⟨-, hx⟩
    rw [natCast_le_mkRat_iff n 9999999 10 (by norm_num)] at hx
    omega)]
  rw [if_neg (by
    rintro ⟨-, hx⟩
    rw [natCast_le_mkRat_iff n 9999999999 10 (by norm_num)] at hx
    omega)]
  simp [Rat.num_natCast, Rat.den_natCast]

/-- C8: the size formatter always produces a numeric part with at most one
character after its (first) decimal point followed by one of the unit
suffixes `b`, `kb`, `mb`, `gb`; on whole byte counts the unit switches at
1000-multiples (`n <= 999` bytes, `1000 <= n <= 999999` kilobytes,
`1000000 <= n <= 999999999` megabytes, gigabytes above), the numeric part
being the truncated — not rounded — exact decimal of `n` divided by the
scale; and the spec's concrete boundary values come out exactly as claimed
(`mkRat` spells the non-integral inputs `999.9`, `999999.9`,
`999999999.9`). -/
theorem c8_size_formatting (n : ℕ) :
    (∃ num unit, unit ∈ (["b", "kb", "mb", "gb"] : List String)
      ∧ size_str (n : ℚ) = num ++ unit ∧ (dotTail num.data).length ≤ 2)
    ∧ (n ≤ 999 → size_str (n : ℚ) = truncate_decimal (renderDec n 1) ++ "b")
    ∧ (1000 ≤ n → n ≤ 999999 → size_str (n : ℚ) = truncate_decimal (renderDec n 1000) ++ "kb")
    ∧ (1000000 ≤ n → n ≤ 999999999 →
        size_str (n : ℚ) = truncate_decimal (renderDec n 1000000) ++ "mb")
    ∧ (1000000000 ≤ n → size_str (n : ℚ) = truncate_decimal (renderDec n 1000000000) ++ "gb")
    ∧ (mkRat 9999 10 = (999.9 : ℚ) ∧ size_str (mkRat 9999 10) = "999.9b")
    ∧ size_str 1000 = "1kb"
    ∧ (mkRat 9999999 10 = (999999.9 : ℚ) ∧ size_str (mkRat 9999999 10) = "999.9kb")
    ∧ size_str 1000000 = "1mb"
    ∧ (mkRat 9999999999 10 = (999999999.9 : ℚ) ∧ size_str (mkRat 9999999999 10) = "999.9mb")
    ∧ size_str 1999 = "1.9kb" := by
  refine ⟨sizeStr_shape (n : ℚ), sizeStr_nat_b n, sizeStr_nat_kb n, sizeStr_nat_mb n,
    sizeStr_nat_gb n, ⟨?_, by decide⟩, by decide, ⟨?_, by decide⟩, by decide, ⟨?_, by decide⟩,
    by decide⟩
  · rw [Rat.mkRat_eq_div]; norm_num
  · rw [Rat.mkRat_eq_div]; norm_num
  · rw [Rat.mkRat_eq_div]; norm_num

theorem c8_size_formatting_witness :
    size_str ((500 : ℕ) : ℚ) = truncate_decimal (renderDec 500 1) ++ "b"
    ∧ size_str ((5000 : ℕ) : ℚ) = truncate_decimal (renderDec 5000 1000) ++ "kb"
    ∧ size_str ((5000000 : ℕ) : ℚ) = truncate_decimal (renderDec 5000000 1000000) ++ "mb"
    ∧ size_str ((2000000000 : ℕ) : ℚ) = truncate_decimal (renderDec 2000000000 1000000000) ++ "gb" :=
  ⟨(c8_size_formatting 500).2.1 (by omega),
   (c8_size_formatting 5000).2.2.1 (by omega) (by omega),
   (c8_size_formatting 5000000).2.2.2.1 (by omega) (by omega),
   (c8_size_formatting 2000000000).2.2.2.2.1 (by omega)⟩

theorem scanPre_length : ∀ (segs : List String) (acc : String),
    (scanPre acc segs).length = segs.length := by
  intro segs
  induction segs with
  | nil => intro acc; rfl
  | cons s rest ih => intro acc; simp only [scanPre, List.length_cons]; rw [ih]

theorem updateLevels_length {T : Type} [DecidableEq T] (out : List (List T)) (i : Nat) (x : T) :
    (updateLevels out i x).length = if i < out.length then out.length else out.length + 1 := by
  rw [updateLevels]
  split
  · exact List.length_set ..
  · simp

theorem foldUpd_length {T : Type} [DecidableEq T] :
    ∀ (items : List T) (j : Nat) (acc : List (List T)), j ≤ acc.length →
      ((List.enumFrom j items).foldl (fun a ix => updateLevels a ix.1 ix.2) acc).length
        = max acc.length (j + items.length) := by
  intro items
  induction items with
  | nil =>
      intro j acc hj
      rw [show List.enumFrom j ([] : List T) = [] from rfl, List.foldl_nil]
      simp only [List.length_nil]
      omega
  | cons x rest ih =>
      intro j acc hj
      rw [List.enumFrom_cons, List.foldl_cons]
      dsimp only
      have hlen := updateLevels_length acc j x
      by_cases hx : j < acc.length
      · rw [if_pos hx] at hlen
        rw [ih (j + 1) _ (by omega), hlen]
        simp only [List.length_cons]
        omega
      · rw [if_neg hx] at hlen
        rw [ih (j + 1) _ (by omega), hlen]
        simp only [List.length_cons]
        omega

theorem dirStep_length {T : Type} [DecidableEq T] (acc : List (List T)) (vec : List T) :
    (dirStep acc vec).length = max acc.length (vec.length - 1) := by
  rw [dirStep]
  rw [show vec.dropLast.enum = List.enumFrom 0 vec.dropLast from rfl]
  rw [foldUpd_length vec.dropLast 0 acc (by omega)]
  rw [List.length_dropLast]
  omega

theorem foldl_dirStep_length {T : Type} [DecidableEq T] :
    ∀ (input : List (List T)) (acc : List (List T)),
      (input.foldl dirStep acc).length
        = input.foldl (fun n v => max n (v.length - 1)) acc.length := by
  intro input
  induction input with
  | nil => intro acc; rfl
  | cons v rest ih =>
      intro acc
      rw [List.foldl_cons, List.foldl_cons, ih, dirStep_length]

theorem matrix_height (files : List String) :
    (get_dir_hierarchy_matrix files).length
      = files.foldl (fun n s => max n ((splitChar '/' s).length - 1)) 0 := by
  rw [get_dir_hierarchy_matrix, dir_tree_hierarchy, foldl_dirStep_length, List.foldl_map]
  simp [scanPre_length]

theorem hsInsert_nodup {T : Type} [DecidableEq T] (l : List T) (x : T) (h : l.Nodup) :
    (hsInsert l x).Nodup := by
  by_cases hx : x ∈ l
  · rw [hsInsert, if_pos hx]; exact h
  · rw [hsInsert, if_neg hx]
    rw [List.nodup_append]
    refine ⟨h, List.nodup_singleton x, ?_⟩
    intro a ha hb
    rw [List.mem_singleton] at hb
    subst hb
    exact hx ha

theorem updateLevels_nodup {T : Type} [DecidableEq T] (out : List (List T)) (i : Nat) (x : T)
    (h : ∀ lvl ∈ out, lvl.Nodup) : ∀ lvl ∈ updateLevels out i x, lvl.Nodup := by
  intro lvl hm
  rw [updateLevels] at hm
  split at hm
  · rcases List.mem_or_eq_of_mem_set hm with h1 | h2
    · exact h lvl h1
    · subst h2; exact hsInsert_nodup _ _ (h _ (List.get_mem ..))
  · rcases List.mem_append.mp hm with h1 | h2
    · exact h lvl h1
    · rw [List.mem_singleton] at h2; subst h2; exact List.nodup_singleton x

theorem foldPairs_nodup {T : Type} [DecidableEq T] :
    ∀ (ps : List (Nat × T)) (acc : List (List T)), (∀ lvl ∈ acc, lvl.Nodup) →
      ∀ lvl ∈ ps.foldl (fun a ix => updateLevels a ix.1 ix.2) acc, lvl.Nodup := by
  intro ps
  induction ps with
  | nil => intro acc h; exact h
  | cons p rest ih =>
      intro acc h
      rw [List.foldl_cons]
      exact ih _ (updateLevels_nodup _ _ _ h)

theorem dir_tree_hierarchy_nodup {T : Type} [DecidableEq T] :
    ∀ (input : List (List T)) (lvl : List T), lvl ∈ dir_tree_hierarchy input → lvl.Nodup := by
  have main : ∀ (input : List (List T)) (acc : List (List T)), (∀ lvl ∈ acc, lvl.Nodup) →
      ∀ lvl ∈ input.foldl dirStep acc, lvl.Nodup := by
    intro input
    induction input with
    | nil => intro acc h; exact h
    | cons v rest ih =>
        intro acc h
        rw [List.foldl_cons]
        exact ih _ (fun lvl hm => foldPairs_nodup _ _ h lvl hm)
  intro input lvl hm
  exact main input [] (by intro l hl; exact absurd hl (List.not_mem_nil l)) lvl hm

theorem hsInsert_mem {T : Type} [DecidableEq T] (l : List T) (x d : T) (h : d ∈ hsInsert l x) :
    d ∈ l ∨ d = x := by
  by_cases hx : x ∈ l
  · rw [hsInsert, if_pos hx] at h; exact Or.inl h
  · rw [hsInsert, if_neg hx] at h
    rcases List.mem_append.mp h with h1 | h2
    · exact Or.inl h1
    · exact Or.inr (List.mem_singleton.mp h2)

theorem mem_getD_set {T : Type} :
    ∀ (out : List (List T)) (i j : Nat) (v : List T) (d : T),
      d ∈ (out.set i v).getD j [] → (i = j ∧ d ∈ v) ∨ d ∈ out.getD j [] := by
  intro out
  induction out with
  | nil => intro i j v d h; simp at h
  | cons hd tl ih =>
      intro i j v d h
      cases i with
      | zero =>
          cases j with
          | zero =>
              rw [List.set_cons_zero, List.getD_cons_zero] at h
              exact Or.inl ⟨rfl, h⟩
          | succ j =>
              rw [List.set_cons_zero, List.getD_cons_succ] at h
              right; rw [List.getD_cons_succ]; exact h
      | succ i =>
          cases j with
          | zero =>
              rw [List.set_cons_succ, List.getD_cons_zero] at h
              right; rw [List.getD_cons_zero]; exact h
          | succ j =>
              rw [List.set_cons_succ, List.getD_cons_succ] at h
              rcases ih i j v d h with ⟨rfl, hdm⟩ | h2
              · exact Or.inl ⟨rfl, hdm⟩
              · right; rw [List.getD_cons_succ]; exact h2

theorem mem_getD_append_singleton {T : Type} :
    ∀ (out : List (List T)) (l0 : List T) (j : Nat) (d : T),
      d ∈ (out ++ [l0]).getD j [] → d ∈ out.getD j [] ∨ (j = out.length ∧ d ∈ l0) := by
  intro out
  induction out with
  | nil =>
      intro l0 j d h
      cases j with
      | zero => rw [List.nil_append, List.getD_cons_zero] at h; exact Or.inr ⟨rfl, h⟩
      | succ j => rw [List.nil_append, List.getD_cons_succ] at h; simp at h
  | cons hd tl ih =>
      intro l0 j d h
      cases j with
      | zero => rw [List.cons_append, List.getD_cons_zero] at h; left; rw [List.getD_cons_zero]; exact h
      | succ j =>
          rw [List.cons_append, List.getD_cons_succ] at h
          rcases ih l0 j d h with h1 | ⟨h2, h3⟩
          · left; rw [List.getD_cons_succ]; exact h1
          · exact Or.inr ⟨by simp [h2], h3⟩

theorem updateLevels_mem {T : Type} [DecidableEq T] (out : List (List T)) (i : Nat) (x : T)
    (hi : i ≤ out.length) (j : Nat) (d : T) (h : d ∈ (updateLevels out i x).getD j []) :
    d ∈ out.getD j [] ∨ (i = j ∧ d = x) := by
  rw [updateLevels] at h
  split at h
  next hlt =>
    rcases mem_getD_set out i j _ d h with ⟨rfl, hmem⟩ | h2
    · rcases hsInsert_mem _ x d hmem with h3 | h4
      · left
        rw [List.getD_eq_getElem _ _ hlt]
        rw [List.get_eq_getElem] at h3
        exact h3
      · exact Or.inr ⟨rfl, h4⟩
    · exact Or.inl h2
  next hge =>
    rcases mem_getD_append_singleton out [x] j d h with h1 | ⟨h2, h3⟩
    · exact Or.inl h1
    · rw [List.mem_singleton] at h3
      exact Or.inr ⟨by omega, h3⟩

theorem foldUpd_mem {T : Type} [DecidableEq T] :
    ∀ (items : List T) (j0 : Nat) (acc : List (List T)), j0 ≤ acc.length →
      ∀ (lv : Nat) (d : T),
        d ∈ ((List.enumFrom j0 items).foldl (fun a ix => updateLevels a ix.1 ix.2) acc).getD lv [] →
          d ∈ acc.getD lv [] ∨ ∃ k, ∃ hk : k < items.length, items.get ⟨k, hk⟩ = d ∧ j0 + k = lv := by
  intro items
  induction items with
  | nil =>
      intro j0 acc hj lv d h
      rw [show List.enumFrom j0 ([] : List T) = [] from rfl, List.foldl_nil] at h
      exact Or.inl h
  | cons x rest ih =>
      intro j0 acc hj lv d h
      rw [List.enumFrom_cons, List.foldl_cons] at h
      have hlen := updateLevels_length acc j0 x
      have hj1 : j0 + 1 ≤ (updateLevels acc j0 x).length := by
        by_cases hx : j0 < acc.length
        · rw [if_pos hx] at hlen; omega
        · rw [if_neg hx] at hlen; omega
      rcases ih (j0 + 1) _ hj1 lv d h with h1 | ⟨k, hk, hget, hsum⟩
      · rcases updateLevels_mem acc j0 x hj lv d h1 with h2 | ⟨rfl, rfl⟩
        · exact Or.inl h2
        · right
          exact ⟨0, by simp, rfl, by omega⟩
      · right
        refine ⟨k + 1, by simp only [List.length_cons]; omega, ?_, by omega⟩
        rw [List.get_cons_succ]
        exact hget

theorem dirStep_mem {T : Type} [DecidableEq T] (acc : List (List T)) (vec : List T) (lv : Nat)
    (d : T) (h : d ∈ (dirStep acc vec).getD lv []) :
    d ∈ acc.getD lv [] ∨ ∃ hk : lv < vec.dropLast.length, vec.dropLast.get ⟨lv, hk⟩ = d := by
  rw [dirStep] at h
  rw [show vec.dropLast.enum = List.enumFrom 0 vec.dropLast from rfl] at h
  rcases foldUpd_mem vec.dropLast 0 acc (by omega) lv d h with h1 | ⟨k, hk, hget, hsum⟩
  · exact Or.inl h1
  · right
    have hkl : k = lv := by omega
    subst hkl
    exact ⟨hk, hget⟩

theorem foldl_dirStep_mem {T : Type} [DecidableEq T] :
    ∀ (input : List (List T)) (acc : List (List T)) (lv : Nat) (d : T),
      d ∈ (input.foldl dirStep acc).getD lv [] →
        d ∈ acc.getD lv []
        ∨ ∃ vec ∈ input, ∃ hk : lv < vec.dropLast.length, vec.dropLast.get ⟨lv, hk⟩ = d := by
  intro input
  induction input with
  | nil => intro acc lv d h; exact Or.inl h
  | cons v rest ih =>
      intro acc lv d h
      rw [List.foldl_cons] at h
      rcases ih _ lv d h with h1 | ⟨vec, hvec, hk, hget⟩
      · rcases dirStep_mem acc v lv d h1 with h2 | ⟨hk, hget⟩
        · exact Or.inl h2
        · exact Or.inr ⟨v, List.mem_cons_self v rest, hk, hget⟩
      · exact Or.inr ⟨vec, List.mem_cons_of_mem v hvec, hk, hget⟩

theorem scanPre_getElem? :
    ∀ (segs : List String) (acc : String) (k : Nat), k < segs.length →
      (scanPre acc segs)[k]? = some (joinFrom acc (segs.take (k + 1))) := by
  intro segs
  induction segs with
  | nil => intro acc k hk; simp at hk
  | cons s rest ih =>
      intro acc k hk
      cases k with
      | zero =>
          rw [scanPre]
          simp only [List.getElem?_cons_zero]
          rfl
      | succ k =>
          rw [scanPre]
          simp only [List.getElem?_cons_succ]
          rw [ih _ k (by simpa using hk)]
          rfl

theorem matrix_entries_no_filename :
    ∀ (files : List String) (lv : Nat) (d : String),
      d ∈ (get_dir_hierarchy_matrix files).getD lv [] →
        ∃ f ∈ files, lv + 2 ≤ (splitChar '/' f).length
          ∧ d = joinPath ((splitChar '/' f).take (lv + 1)) := by
  intro files lv d h
  rw [get_dir_hierarchy_matrix, dir_tree_hierarchy] at h
  rcases foldl_dirStep_mem _ [] lv d h with h1 | ⟨vec, hvec, hk, hget⟩
  · rw [List.getD_nil] at h1
    exact absurd h1 (List.not_mem_nil d)
  · rw [List.mem_map] at hvec
    obtain ⟨f, hf, rfl⟩ := hvec
    have hk2 : lv < (scanPre "" (splitChar '/' f)).length := by
      have := hk
      rw [List.length_dropLast] at this
      omega
    refine ⟨f, hf, ?_, ?_⟩
    · have h1 := hk
      rw [List.length_dropLast, scanPre_length] at h1
      omega
    · rw [List.get_eq_getElem, List.getElem_dropLast] at hget
      have h3 := scanPre_getElem? (splitChar '/' f) "" lv (by rwa [scanPre_length] at hk2)
      rw [List.getElem?_eq_getElem hk2] at h3
      rw [Option.some_inj] at h3
      rw [← hget, h3]
      rfl

/-- C6 counterexample: at the claimed input the matrix's level 0 is
`["/a"]`, not `{"a"}` — every entry carries a leading separator, so the bare
string `a` is not a member of level 0 (nor is `a/b` a member of level 1). -/
theorem c6_level_zero_not_bare :
    (get_dir_hierarchy_matrix inputC6).getD 0 [] = ["/a"]
    ∧ ((get_dir_hierarchy_matrix inputC6).getD 0 []).contains "a" = false
    ∧ ((get_dir_hierarchy_matrix inputC6).getD 1 []).contains "a/b" = false :=
  ⟨rfl, rfl, rfl⟩

/-- C6 amended: for inputs `a/b/x.txt`, `a/c/y.txt` the matrix's level 0 is
exactly the set containing `/a` and level 1 exactly the set containing
`/a/b` and `/a/c` (each directory path carries a leading separator); for
every input, every level entry is the joined proper directory prefix of some
input file (the final path segment is always excluded, so no level contains
a filename), levels contain no duplicates, and the matrix height is the
maximum directory depth (segment count minus one) across all input files. -/
theorem c6_depth_matrix :
    (get_dir_hierarchy_matrix inputC6).getD 0 [] = ["/a"]
    ∧ (∀ s, s ∈ (get_dir_hierarchy_matrix inputC6).getD 1 [] ↔ (s = "/a/b" ∨ s = "/a/c"))
    ∧ (get_dir_hierarchy_matrix inputC6).length = 2
    ∧ (∀ files lv d, d ∈ (get_dir_hierarchy_matrix files).getD lv [] →
        ∃ f ∈ files, lv + 2 ≤ (splitChar '/' f).length
          ∧ d = joinPath ((splitChar '/' f).take (lv + 1)))
    ∧ (∀ files lvl, lvl ∈ get_dir_hierarchy_matrix files → lvl.Nodup)
    ∧ (∀ files, (get_dir_hierarchy_matrix files).length
        = files.foldl (fun n s => max n ((splitChar '/' s).length - 1)) 0) := by
  refine ⟨rfl, ?_, rfl, matrix_entries_no_filename, ?_, matrix_height⟩
  · intro s
    rw [show (get_dir_hierarchy_matrix inputC6).getD 1 [] = ["/a/b", "/a/c"] from rfl]
    simp
  · intro files lvl h
    exact dir_tree_hierarchy_nodup _ lvl h

theorem c6_depth_matrix_witness :
    ("/a/b" ∈ (get_dir_hierarchy_matrix inputC6).getD 1 []
      ↔ ("/a/b" = "/a/b" ∨ "/a/b" = "/a/c"))
    ∧ (∃ f ∈ inputC6, 0 + 2 ≤ (splitChar '/' f).length
        ∧ "/a" = joinPath ((splitChar '/' f).take (0 + 1)))
    ∧ (["/a"] : List String).Nodup
    ∧ (get_dir_hierarchy_matrix inputC6).length
        = inputC6.foldl (fun n s => max n ((splitChar '/' s).length - 1)) 0 :=
  ⟨c6_depth_matrix.2.1 "/a/b",
   c6_depth_matrix.2.2.2.1 inputC6 0 "/a" (by decide),
   c6_depth_matrix.2.2.2.2.1 inputC6 ["/a"] (by decide),
   c6_depth_matrix.2.2.2.2.2 inputC6⟩

/-- Unfolding equation for `FileTree.new` in the control-flow shape of the
source: return `None` when `h_index + 1` exceeds the tree height, otherwise
take the next level's entries (none at the last level), keep those containing
this node's directory string, recurse on each with the same matrix, attach
the current directory's files and sum the sizes. -/
theorem FileTree.new_eq (fs : FsModel) (m : List (List String)) (tgt : List String)
    (h w : Nat) :
    FileTree.new fs m tgt h w =
      if h + 1 > m.length then none
      else
        let children : List String := if h + 1 = m.length then [] else m.getD (h + 1) []
        let dir : String := (m.getD h []).getD w ""
        let child_nodes : List FileTree :=
          (children.enum.filter (fun iw => isSubstring dir.data iw.2.data)).filterMap
            (fun iw => FileTree.new fs m tgt (h + 1) iw.1)
        let files_in_cur_dir := getFilesAtDir fs tgt dir
        some
          { dir := dir
            files := getFilesAtDir fs tgt dir
            nodes := child_nodes
            size := files_in_cur_dir.foldl (fun acc file => acc + file.byte_size) 0
              + child_nodes.foldl (fun acc tree => acc + tree.size) 0 } := by
  rw [FileTree.new]
  by_cases hgt : h + 1 > m.length
  · rw [if_pos hgt]
    have h0 : m.length - h = 0 := by omega
    rw [h0, newGo_zero]
  · rw [if_neg hgt]
    obtain ⟨k, hk⟩ : ∃ k, m.length - h = k + 1 := ⟨m.length - h - 1, by omega⟩
    rw [hk]
    simp only [FileTree.newGo]
    have hrec : ∀ iw : Nat × String,
        FileTree.newGo fs m tgt k (h + 1) iw.1 = FileTree.new fs m tgt (h + 1) iw.1 := by
      intro iw
      rw [FileTree.new]
      congr 1
      omega
    simp only [hrec]
